import Mathlib

/-!
# Verification of the flash-arbitrage repository

Shallow embedding of the `FlashArbitrage` Solidity contract
(`executeOperation`, `fundContract`, `withdrawToken`) and of the
off-chain bot (`analyzeOpportunity`, `encodeArbitrageParams`,
`ensureContractFunding`, `getCurrentGasPrice`, `executeTradingCycle`,
the `setInterval` restart loop), together with theorems settling the
specification claims about them.

Addresses are modelled as `Nat`, byte strings as `List Nat` with every
entry below 256, and EVM words as `Nat` reduced modulo `2 ^ 256` where
the source relies on 256-bit arithmetic.
-/

namespace FlashArb

/-! ## ABI encoding of the instruction blob

The off-chain side encodes `(uint256, address[], bytes[])` with
`ethers.AbiCoder.defaultAbiCoder().encode` (`bot.js`,
`encodeArbitrageParams`), and the contract decodes the same tuple with
`abi.decode(params, (uint256, address[], bytes[]))`
(`FlashArbitrage.executeOperation`).  We model the canonical Ethereum
ABI layout both implementations share: a three-word head
(value, offset of `address[]`, offset of `bytes[]`), then the address
array (length word followed by one word per address), then the bytes
array (length word, one offset word per element, then each element as a
length word followed by the payload padded with zeros to a 32-byte
boundary). -/

/-- Big-endian byte expansion: `natToBytesBE k n` is the `k`-byte
big-endian representation of `n % 256 ^ k`. -/
def natToBytesBE : Nat → Nat → List Nat
  | 0, _ => []
  | k + 1, n => natToBytesBE k (n / 256) ++ [n % 256]

/-- Read a big-endian byte string back into a number. -/
def bytesToNat (bs : List Nat) : Nat :=
  bs.foldl (fun a b => a * 256 + b) 0

/-- A 32-byte EVM word. -/
def word (n : Nat) : List Nat := natToBytesBE 32 n

/-- The decoded form of the instruction blob: the tuple
`(uint256 minProfit, address[] path, bytes[] swapData)` of
`abi.decode` in `FlashArbitrage.executeOperation` (named
`minimumProfit`/`targets`/`payloads` in the spec's wire-format
description). -/
structure ArbParams where
  minProfit : Nat
  targets : List Nat
  payloads : List (List Nat)
deriving DecidableEq, Repr

/-- One `bytes` element of a `bytes[]` tail: length word, then the
payload padded with zeros to a 32-byte boundary. -/
def encBytes (bs : List Nat) : List Nat :=
  word bs.length ++ bs ++ List.replicate ((bs.length + 31) / 32 * 32 - bs.length) 0

/-- The `address[]` component: length word followed by one word per
address. -/
def encAddrArray (ts : List Nat) : List Nat :=
  word ts.length ++ (ts.map word).flatten

/-- Canonical ABI offsets of the elements of a `bytes[]` tail,
relative to the start of the element-offsets area. -/
def bytesOffsetsFrom : Nat → List (List Nat) → List Nat
  | _, [] => []
  | off, p :: ps => off :: bytesOffsetsFrom (off + (encBytes p).length) ps

/-- The `bytes[]` component: length word, element offset words, then
the encoded elements. -/
def encBytesArray (ps : List (List Nat)) : List Nat :=
  word ps.length ++ ((bytesOffsetsFrom (32 * ps.length) ps).map word).flatten
    ++ (ps.map encBytes).flatten

/-- Encoding `ethers.AbiCoder.defaultAbiCoder().encode(["uint256", "address[]",
"bytes[]"], ...)` as used by `ProductionArbitrageBot.encodeArbitrageParams`:
three head words (the `uint256`, the offset `96` of the address array,
the offset of the bytes array) followed by the two array tails. -/
def encodeArbitrageParams (p : ArbParams) : List Nat :=
  word p.minProfit ++ word 96 ++ word (96 + (encAddrArray p.targets).length)
    ++ encAddrArray p.targets ++ encBytesArray p.payloads

/-- Read the 32-byte word at the head of a byte string. -/
def readWord (bs : List Nat) : Nat := bytesToNat (bs.take 32)

/-- Read `k` consecutive 32-byte words, returning them with the
remaining bytes. -/
def parseWords : Nat → List Nat → Option (List Nat × List Nat)
  | 0, bs => some ([], bs)
  | k + 1, bs =>
    if 32 ≤ bs.length then
      match parseWords k (bs.drop 32) with
      | some (ws, rest) => some (bytesToNat (bs.take 32) :: ws, rest)
      | none => none
    else none

/-- Read `k` consecutive canonically encoded `bytes` elements (length
word, payload, zero padding to a 32-byte boundary). -/
def parseBytesItems : Nat → List Nat → Option (List (List Nat) × List Nat)
  | 0, bs => some ([], bs)
  | k + 1, bs =>
    if 32 ≤ bs.length then
      let len := bytesToNat (bs.take 32)
      let padded := (len + 31) / 32 * 32
      let body := bs.drop 32
      if padded ≤ body.length then
        if ∀ b ∈ (body.take padded).drop len, b = 0 then
          match parseBytesItems k (body.drop padded) with
          | some (items, rest) => some (body.take len :: items, rest)
          | none => none
        else none
      else none
    else none

/-- Decoding `abi.decode(params, (uint256, address[], bytes[]))` restricted to
canonically encoded blobs: the decoder accepts exactly the byte
strings produced by `encodeArbitrageParams` (well-formed blobs) and
rejects everything else.  It validates the fixed offset `96` of the
address array, the derived offset of the bytes array, the address
range (`< 2 ^ 160`), the canonical element offsets inside the
`bytes[]` tail, the zero padding, and that no bytes trail the
encoding. -/
def abiDecodeParams (blob : List Nat) : Option ArbParams :=
  if ¬ ∀ b ∈ blob, b < 256 then none
  else if blob.length < 96 then none
  else if readWord (blob.drop 32) ≠ 96 then none
  else if (blob.drop 96).length < 32 then none
  else
    match parseWords (readWord (blob.drop 96)) ((blob.drop 96).drop 32) with
    | none => none
    | some (targets, rest) =>
      if ¬ ∀ t ∈ targets, t < 2 ^ 160 then none
      else if readWord (blob.drop 64) ≠ 128 + 32 * targets.length then none
      else if rest.length < 32 then none
      else
        match parseWords (readWord rest) (rest.drop 32) with
        | none => none
        | some (offs, rest2) =>
          match parseBytesItems offs.length rest2 with
          | none => none
          | some (payloads, rest3) =>
            if offs = bytesOffsetsFrom (32 * offs.length) payloads ∧ rest3 = []
            then some ⟨readWord blob, targets, payloads⟩
            else none

/-- Well-formedness of a decoded triple: every field fits its ABI
type and every serialized length or offset fits in one word. -/
def wfParams (p : ArbParams) : Prop :=
  p.minProfit < 2 ^ 256 ∧
  (∀ t ∈ p.targets, t < 2 ^ 160) ∧
  128 + 32 * p.targets.length < 2 ^ 256 ∧
  p.payloads.length < 2 ^ 256 ∧
  (∀ off ∈ bytesOffsetsFrom (32 * p.payloads.length) p.payloads, off < 2 ^ 256) ∧
  (∀ bs ∈ p.payloads, bs.length < 2 ^ 256 ∧ ∀ b ∈ bs, b < 256)

instance (p : ArbParams) : Decidable (wfParams p) := by
  unfold wfParams; infer_instance

/-! ## The settlement contract `FlashArbitrage`

`executeOperation` is embedded as a function of the immutable
configuration (owner and pool addresses fixed at construction), an
external trade environment (the outcome of each low-level `call` and
the balance observed after the trade loop), the call arguments, and the
relevant token state.  A revert returns the original state (the
execution environment's atomic rollback) together with the revert
reason; the trace of attempted `(target, payload)` invocations is
reported separately so that theorems can speak about which trades a
session attempted. -/

/-- Immutable settlement-contract configuration: the deployer becomes
`owner` and `pool` is fetched from the addresses provider at
construction. -/
structure SettlementConfig where
  owner : Nat
  pool : Nat
deriving DecidableEq, Repr

/-- Token state relevant to one settlement session: the contract's and
the operator's balance of the borrowed asset, and the allowance the
contract has granted the pool over that asset. -/
structure ChainState where
  contractBal : Nat
  ownerBal : Nat
  poolAllowance : Nat
deriving DecidableEq, Repr

/-- Revert reasons of `executeOperation`, one per `require`/`revert`
site of the source: `unauthorized` is `require(msg.sender == pool,
"Unauthorized")`, `unauthorizedInitiator` is `require(initiator ==
owner, "Unauthorized initiator")`, `abiDecodeError` is the low-level
revert of `abi.decode` on a malformed blob, `swapFailed` is
`revert("Swap failed")`, `indexOutOfBounds` is the Solidity panic
raised by `path[i]` when `i >= path.length`, `insufficientRepayment` is
`require(finalBalance >= totalDebt, "Insufficient funds to repay")`,
and `overflowPanic` is the checked-arithmetic panic of
`amount + premium` in Solidity 0.8. -/
inductive RevertReason where
  | unauthorized
  | unauthorizedInitiator
  | abiDecodeError
  | swapFailed
  | indexOutOfBounds
  | insufficientRepayment
  | overflowPanic
deriving DecidableEq, Repr

/-- Whether a revert reason belongs to the spec's `Unauthorized`
taxonomy class (caller/initiator mismatch), which covers both revert
strings `"Unauthorized"` and `"Unauthorized initiator"`. -/
def RevertReason.isUnauthorized : RevertReason → Bool
  | .unauthorized => true
  | .unauthorizedInitiator => true
  | _ => false

/-- Result of one settlement session: a revert with its reason, or
completion with the optional `ArbitrageProfit` event payload. -/
inductive SessionResult where
  | reverted (r : RevertReason)
  | completed (profitEvent : Option Nat)
deriving DecidableEq, Repr

/-- Outcome of one `executeOperation` call: the result, the resulting
token state (the original state when the session reverted), and the
trace of `(target, payload)` trade invocations the session attempted. -/
structure SessionOutcome where
  result : SessionResult
  state : ChainState
  invocations : List (Nat × List Nat)
deriving DecidableEq, Repr

/-- External trade environment of a session: whether the low-level
`call` to a target with given calldata succeeds, and the contract's
balance of the borrowed asset as read after the trade loop. -/
structure TradeEnv where
  callOk : Nat → List Nat → Bool
  finalBalance : Nat

/-- The swap loop
`for i in 0..swapData.length: (bool success,) = path[i].call(swapData[i])`:
pairs targets and payloads positionally, reverts with the out-of-bounds
panic when `path` runs out before `swapData`, reverts with `swapFailed`
when a call fails, and records the attempted invocations in order. -/
def runSwaps (callOk : Nat → List Nat → Bool) :
    List Nat → List (List Nat) → Option RevertReason × List (Nat × List Nat)
  | _, [] => (none, [])
  | [], _ :: _ => (some .indexOutOfBounds, [])
  | t :: ts, d :: ds =>
    if callOk t d then
      ((runSwaps callOk ts ds).1, (t, d) :: (runSwaps callOk ts ds).2)
    else (some .swapFailed, [(t, d)])

/-- The tail of `executeOperation` after a successful swap loop:
`totalDebt = amount + premium` (checked 0.8 arithmetic, so an overflow
panics), the solvency `require`, the `approve(pool, totalDebt)`, and
the threshold-guarded profit distribution
`if (finalBalance > totalDebt) { if (profit >= minProfit) { transfer;
emit ArbitrageProfit } }`. -/
def settle (minProfit amount premium finalBalance : Nat) (st : ChainState) :
    SessionResult × ChainState :=
  if 2 ^ 256 ≤ amount + premium then (.reverted .overflowPanic, st)
  else if finalBalance < amount + premium then
    (.reverted .insufficientRepayment, st)
  else
    if amount + premium < finalBalance then
      if minProfit ≤ finalBalance - (amount + premium) then
        (.completed (some (finalBalance - (amount + premium))),
          ⟨amount + premium,
           st.ownerBal + (finalBalance - (amount + premium)),
           amount + premium⟩)
      else (.completed none, ⟨finalBalance, st.ownerBal, amount + premium⟩)
    else (.completed none, ⟨finalBalance, st.ownerBal, amount + premium⟩)

/-- The callback `FlashArbitrage.executeOperation`: authorization checks, blob
decode, swap loop, then `settle` (solvency check, repayment approval,
profit distribution), in source order.  The `balanceBefore` read of
the source only feeds a `DebugLog` event and has no effect on control
flow or state, so it is not modelled. -/
def executeOperation (cfg : SettlementConfig) (env : TradeEnv)
    (caller : Nat) (amount premium : Nat) (initiator : Nat)
    (blob : List Nat) (st : ChainState) : SessionOutcome :=
  if caller ≠ cfg.pool then ⟨.reverted .unauthorized, st, []⟩
  else if initiator ≠ cfg.owner then ⟨.reverted .unauthorizedInitiator, st, []⟩
  else
    match abiDecodeParams blob with
    | none => ⟨.reverted .abiDecodeError, st, []⟩
    | some prms =>
      match runSwaps env.callOk prms.targets prms.payloads with
      | (some r, invs) => ⟨.reverted r, st, invs⟩
      | (none, invs) =>
        ⟨(settle prms.minProfit amount premium env.finalBalance st).1,
         (settle prms.minProfit amount premium env.finalBalance st).2, invs⟩

/-! ## The contract's non-callback external surface (`fundContract`,
`withdrawToken`) and what the repository's tests call -/

/-- Single-token balances around one operator action. -/
structure TokenState where
  callerBal : Nat
  contractBal : Nat
  ownerBal : Nat
deriving DecidableEq, Repr

/-- The action `FlashArbitrage.fundContract`: the `onlyOwner` modifier
(`require(msg.sender == owner, "Only owner")`), then
`transferFrom(msg.sender, address(this), amount)` (the token-side
allowance bookkeeping lives in the external ERC-20 and is not part of
this contract). -/
def fundContract (cfg : SettlementConfig) (caller : Nat) (amount : Nat)
    (st : TokenState) : Except String TokenState :=
  if caller ≠ cfg.owner then .error "Only owner"
  else .ok { st with callerBal := st.callerBal - amount,
                     contractBal := st.contractBal + amount }

/-- The action `FlashArbitrage.withdrawToken`: the `onlyOwner` modifier, then
transfer of the full token balance to the owner. -/
def withdrawToken (cfg : SettlementConfig) (caller : Nat) (st : TokenState) :
    Except String TokenState :=
  if caller ≠ cfg.owner then .error "Only owner"
  else .ok { st with contractBal := 0, ownerBal := st.ownerBal + st.contractBal }

/-- The external surface of the `FlashArbitrage` contract as written:
the three public immutable getters, the flash-loan callback, the two
operator-only actions, and the two interface accessors. -/
def flashArbitrageExternalFunctions : List String :=
  ["owner", "pool", "addressesProvider", "executeOperation", "fundContract",
   "withdrawToken", "ADDRESSES_PROVIDER", "POOL"]

/-- The contract functions the repository's own test suite invokes. -/
def testSuiteCalledFunctions : List String :=
  ["owner", "ADDRESSES_PROVIDER", "POOL", "withdrawToken", "fundContract",
   "emergencyWithdraw", "executeOperation", "getContractBalance", "isContract"]

/-! ## The off-chain bot (`scripts/bot.js`)

Amounts are 18-decimal fixed-point naturals (wei); quote amounts are
the `BigInt` outputs of the two venue adapters; gas prices are
rationals in gwei (the source compares `parseFloat` values, which are
exact for the integer gas prices compared here). -/

/-- Constant `BOT_CONFIG.MIN_PROFIT_WEI = ethers.parseUnits("0.1", 18)`. -/
def MIN_PROFIT_WEI : Nat := 10 ^ 17

/-- Constant `BOT_CONFIG.MIN_PRICE_DIFFERENCE` (basis points). -/
def MIN_PRICE_DIFFERENCE : Nat := 50

/-- Constant `BOT_CONFIG.DEFAULT_AMOUNT = ethers.parseUnits("10", 18)`. -/
def DEFAULT_AMOUNT : Nat := 10 * 10 ^ 18

/-- Constant `BOT_CONFIG.MAX_GAS_PRICE` expressed in gwei, as the source
compares it: `parseFloat(ethers.formatUnits(MAX_GAS_PRICE, "gwei"))`. -/
def MAX_GAS_PRICE_GWEI : ℚ := 25

/-- Address `CONTRACTS.TOKENS.DAI` on Sepolia. -/
def DAI_ADDR : Nat := 0xFF34B3d4Aee8ddCd6F9AFFFB6Fe49bD371b8a357

/-- Address `CONTRACTS.TOKENS.WETH` on Sepolia. -/
def WETH_ADDR : Nat := 0xC558DBdd856501FCd9aaF1E62eae57A9F0629a3c

/-- The Opportunity record built by `analyzeOpportunity`. -/
structure Opportunity where
  tokenA : Nat
  tokenB : Nat
  amount : Nat
  buyFromDex : String
  sellToDex : String
  buyPrice : Nat
  sellPrice : Nat
  estimatedProfit : Int
  priceDifference : ℚ
  gasEstimate : Nat
deriving DecidableEq, Repr

/-- The evaluator `ProductionArbitrageBot.analyzeOpportunity`: basis-point divergence
over the larger quote, the 50 bps gate, the 9 bps flash-loan fee on the
notional, and the 0.1-unit profit gate.  Quote amounts are `BigInt`s,
so `estimatedProfit` is a signed integer; the `Number(...)` around the
divergence is exact because the quotient is an integer at most
10000. -/
def analyzeOpportunity (amount : Nat) (price1 price2 : Nat × String)
    (tokenA tokenB : Nat) : Option Opportunity :=
  let amount1 := price1.1
  let amount2 := price2.1
  let priceDiff : Nat :=
    if amount2 < amount1 then (amount1 - amount2) * 10000 / amount1
    else (amount2 - amount1) * 10000 / amount2
  if priceDiff < MIN_PRICE_DIFFERENCE then none
  else
    let buyFromDex := if amount2 < amount1 then price2.2 else price1.2
    let sellToDex := if amount2 < amount1 then price1.2 else price2.2
    let buyPrice := if amount2 < amount1 then amount2 else amount1
    let sellPrice := if amount2 < amount1 then amount1 else amount2
    let flashLoanFee := amount * 9 / 10000
    let estimatedProfit : Int := (sellPrice : Int) - buyPrice - flashLoanFee
    if estimatedProfit < (MIN_PROFIT_WEI : Int) then none
    else some ⟨tokenA, tokenB, amount, buyFromDex, sellToDex, buyPrice, sellPrice,
      estimatedProfit, (priceDiff : ℚ) / 100, 200000⟩

/-- One on-chain transaction submitted by the funding guard. -/
inductive FundingTx where
  | approve (spender amount : Nat)
  | fund (token amount : Nat)
deriving DecidableEq, Repr

/-- The funding guard `ProductionArbitrageBot.ensureContractFunding`: reads the
settlement contract's DAI balance; below 5 DAI it requires the wallet
to hold at least 10 DAI (else it throws) and submits
`approve(contract, 10 DAI)` followed by `fundContract(DAI, 10 DAI)`;
at or above 5 DAI it submits nothing.  `flashArbitrageAddr` is the
deployed contract address from the environment. -/
def ensureContractFunding (flashArbitrageAddr : Nat)
    (contractBal walletBal : Nat) : Except String (List FundingTx) :=
  if contractBal < 5 * 10 ^ 18 then
    if walletBal < 10 * 10 ^ 18 then
      .error "Insufficient DAI in wallet for contract funding"
    else
      .ok [.approve flashArbitrageAddr (10 * 10 ^ 18),
           .fund DAI_ADDR (10 * 10 ^ 18)]
  else .ok []

/-- Balances and allowance touched by the funding guard's
transactions. -/
structure FundingState where
  walletDai : Nat
  contractDai : Nat
  allowance : Nat
deriving DecidableEq, Repr

/-- Effect of one funding transaction on the balances. -/
def applyFundingTx (s : FundingState) : FundingTx → FundingState
  | .approve _ amt => { s with allowance := amt }
  | .fund _ amt =>
    { walletDai := s.walletDai - amt, contractDai := s.contractDai + amt,
      allowance := s.allowance - amt }

/-- Effect of a funding-transaction sequence on the balances. -/
def applyFundingTxs (txs : List FundingTx) (s : FundingState) : FundingState :=
  txs.foldl applyFundingTx s

/-- The helper `ProductionArbitrageBot.getCurrentGasPrice`: the fetched fee data
in gwei, or the fallback `50` when the fetch throws. -/
def getCurrentGasPrice (fetched : Option ℚ) : ℚ :=
  match fetched with
  | some g => g
  | none => 50

/-- Externally observable actions of one trading cycle. -/
inductive CycleAction where
  | queryPriceOracles
  | submitFlashLoan
deriving DecidableEq, Repr

/-- External inputs of one trading cycle: the gas-price fetch result
and the two venue quotes (a `none` quote is an adapter failure). -/
structure CycleEnv where
  gasFetch : Option ℚ
  uniQuote : Option Nat
  sushiQuote : Option Nat

/-- The cycle `ProductionArbitrageBot.executeTradingCycle`: the gas check runs
first and returns early above the 25 gwei ceiling; otherwise the cycle
queries both price oracles, and submits at most one flash loan when the
scan yields an opportunity. -/
def executeTradingCycle (env : CycleEnv) : List CycleAction :=
  if MAX_GAS_PRICE_GWEI < getCurrentGasPrice env.gasFetch then []
  else
    match env.uniQuote, env.sushiQuote with
    | some qa, some qb =>
      match analyzeOpportunity DEFAULT_AMOUNT (qa, "uniswap") (qb, "sushiswap")
          DAI_ADDR WETH_ADDR with
      | some _ => [.queryPriceOracles, .submitFlashLoan]
      | none => [.queryPriceOracles]
    | _, _ => [.queryPriceOracles]

/-- Orchestrator state: the `isRunning` flag, whether a `start()`
invocation's main loop is live, and how many trading cycles have
executed. -/
structure BotState where
  isRunning : Bool
  loopActive : Bool
  cycles : Nat
deriving DecidableEq, Repr

/-- Orchestrator events: `stopSignal` is `stop()` clearing `isRunning`;
`loopStep` is one iteration of the `while (this.isRunning)` loop inside
`start()` (a trading cycle when the flag is up, loop exit otherwise);
`restartTick` is the 5-second `setInterval` callback at the bottom of
`bot.js`, which calls `start()` whenever the bot is not running. -/
inductive BotEvent where
  | stopSignal
  | loopStep
  | restartTick
deriving DecidableEq, Repr

/-- One orchestrator transition. -/
def botStep (s : BotState) : BotEvent → BotState
  | .stopSignal => { s with isRunning := false }
  | .loopStep =>
    if s.loopActive then
      if s.isRunning then { s with cycles := s.cycles + 1 }
      else { s with loopActive := false }
    else s
  | .restartTick =>
    if s.isRunning then s
    else { s with isRunning := true, loopActive := true }

/-- Run the orchestrator over a sequence of events. -/
def botRun (s : BotState) (es : List BotEvent) : BotState :=
  es.foldl botStep s

/-! ## Theorems -/

theorem natToBytesBE_length (k n : Nat) : (natToBytesBE k n).length = k := by
  induction k generalizing n with
  | zero => rfl
  | succ k ih => simp [natToBytesBE, ih]

theorem natToBytesBE_lt (k n : Nat) : ∀ b ∈ natToBytesBE k n, b < 256 := by
  induction k generalizing n with
  | zero => intro b hb; simp [natToBytesBE] at hb
  | succ k ih =>
    intro b hb
    simp only [natToBytesBE, List.mem_append, List.mem_singleton] at hb
    rcases hb with hb | hb
    · exact ih _ _ hb
    · subst hb; exact Nat.mod_lt _ (by norm_num)

theorem foldl_natToBytesBE (k n a : Nat) :
    (natToBytesBE k n).foldl (fun a b => a * 256 + b) a
      = a * 256 ^ k + n % 256 ^ k := by
  induction k generalizing n a with
  | zero => simp [natToBytesBE, Nat.mod_one]
  | succ k ih =>
    have hdiv : n % (256 * 256 ^ k) / 256 = n / 256 % 256 ^ k :=
      Nat.mod_mul_right_div_self n 256 (256 ^ k)
    have hmodmod : n % (256 * 256 ^ k) % 256 = n % 256 :=
      Nat.mod_mod_of_dvd n ⟨256 ^ k, rfl⟩
    have hsplit : n % (256 * 256 ^ k) = 256 * (n / 256 % 256 ^ k) + n % 256 := by
      conv_lhs => rw [← Nat.div_add_mod (n % (256 * 256 ^ k)) 256]
      rw [hdiv, hmodmod]
    have hpow : (256 : Nat) ^ (k + 1) = 256 * 256 ^ k := by ring
    simp only [natToBytesBE, List.foldl_append, List.foldl_cons, List.foldl_nil, ih]
    rw [hpow, hsplit]; ring

theorem bytesToNat_natToBytesBE (k n : Nat) :
    bytesToNat (natToBytesBE k n) = n % 256 ^ k := by
  simpa using foldl_natToBytesBE k n 0

/-- Canonicity: re-serializing the value read from a byte string of the
right length gives back the byte string. -/
theorem natToBytesBE_bytesToNat (bs : List Nat) (hlt : ∀ b ∈ bs, b < 256) :
    natToBytesBE bs.length (bytesToNat bs) = bs := by
  induction bs using List.reverseRecOn with
  | nil => rfl
  | append_singleton ys b ih =>
    have hb : b < 256 := hlt b (by simp)
    have hys : ∀ x ∈ ys, x < 256 := fun x hx => hlt x (by simp [hx])
    have hfold : bytesToNat (ys ++ [b]) = bytesToNat ys * 256 + b := by
      simp [bytesToNat, List.foldl_append]
    have hlen : (ys ++ [b]).length = ys.length + 1 := by simp
    rw [hlen, hfold]
    have hdiv : (bytesToNat ys * 256 + b) / 256 = bytesToNat ys := by
      omega
    have hmod : (bytesToNat ys * 256 + b) % 256 = b := by
      omega
    simp only [natToBytesBE, hdiv, hmod, ih hys]

theorem word_length (n : Nat) : (word n).length = 32 :=
  natToBytesBE_length 32 n

theorem word_lt (n : Nat) : ∀ b ∈ word n, b < 256 :=
  natToBytesBE_lt 32 n

theorem bytesToNat_word (n : Nat) : bytesToNat (word n) = n % 2 ^ 256 := by
  have : (256 : Nat) ^ 32 = 2 ^ 256 := by norm_num
  rw [word, bytesToNat_natToBytesBE, this]

theorem bytesToNat_word_of_lt (n : Nat) (h : n < 2 ^ 256) :
    bytesToNat (word n) = n := by
  rw [bytesToNat_word, Nat.mod_eq_of_lt h]

/-! ### Round-trip lemmas -/

theorem take_append_len {α : Type} (l₁ l₂ : List α) {k : Nat} (h : l₁.length = k) :
    (l₁ ++ l₂).take k = l₁ := by
  subst h; exact List.take_left l₁ l₂

theorem drop_append_len {α : Type} (l₁ l₂ : List α) {k : Nat} (h : l₁.length = k) :
    (l₁ ++ l₂).drop k = l₂ := by
  subst h; exact List.drop_left l₁ l₂

theorem take_append₂ {α : Type} (l₁ l₂ l₃ : List α) {k : Nat}
    (h : l₁.length + l₂.length = k) :
    (l₁ ++ (l₂ ++ l₃)).take k = l₁ ++ l₂ := by
  rw [← List.append_assoc]
  exact take_append_len (l₁ ++ l₂) l₃ (by simp [h])

theorem drop_append₂ {α : Type} (l₁ l₂ l₃ : List α) {k : Nat}
    (h : l₁.length + l₂.length = k) :
    (l₁ ++ (l₂ ++ l₃)).drop k = l₃ := by
  rw [← List.append_assoc]
  exact drop_append_len (l₁ ++ l₂) l₃ (by simp [h])

theorem bytesToNat_lt (bs : List Nat) (hlt : ∀ b ∈ bs, b < 256) :
    bytesToNat bs < 256 ^ bs.length := by
  have h := congrArg bytesToNat (natToBytesBE_bytesToNat bs hlt)
  rw [bytesToNat_natToBytesBE] at h
  have hpos : 0 < 256 ^ bs.length := Nat.pos_pow_of_pos _ (by norm_num)
  have := Nat.mod_lt (bytesToNat bs) hpos
  omega

theorem readWord_lt (bs : List Nat) (h32 : 32 ≤ bs.length)
    (hlt : ∀ b ∈ bs, b < 256) : readWord bs < 2 ^ 256 := by
  have hlen : (bs.take 32).length = 32 := by
    simp [List.length_take]; omega
  have h := bytesToNat_lt (bs.take 32) (fun b hb => hlt b (List.take_subset _ _ hb))
  rw [hlen] at h
  have : (256 : Nat) ^ 32 = 2 ^ 256 := by norm_num
  rw [this] at h
  exact h

/-- A word read from a canonical byte string re-serializes to the same
32 bytes. -/
theorem word_readWord (bs : List Nat) (h32 : 32 ≤ bs.length)
    (hlt : ∀ b ∈ bs, b < 256) : word (readWord bs) = bs.take 32 := by
  have hlen : (bs.take 32).length = 32 := by
    simp [List.length_take]; omega
  have h := natToBytesBE_bytesToNat (bs.take 32)
    (fun b hb => hlt b (List.take_subset _ _ hb))
  rw [hlen] at h
  rw [readWord, word, h]

theorem readWord_word_append (n : Nat) (l : List Nat) :
    readWord (word n ++ l) = n % 2 ^ 256 := by
  rw [readWord, take_append_len _ _ (word_length n), bytesToNat_word]

theorem readWord_word_append_of_lt (n : Nat) (l : List Nat) (h : n < 2 ^ 256) :
    readWord (word n ++ l) = n := by
  rw [readWord_word_append, Nat.mod_eq_of_lt h]

theorem flatten_map_word_length (ws : List Nat) :
    ((ws.map word).flatten).length = 32 * ws.length := by
  induction ws with
  | nil => simp
  | cons w ws ih =>
    simp only [List.map_cons, List.flatten_cons, List.length_append, word_length, ih,
      List.length_cons]
    ring

theorem flatten_map_word_lt (ws : List Nat) :
    ∀ b ∈ (ws.map word).flatten, b < 256 := by
  induction ws with
  | nil => simp
  | cons w ws ih =>
    intro b hb
    simp only [List.map_cons, List.flatten_cons, List.mem_append] at hb
    rcases hb with hb | hb
    · exact word_lt w b hb
    · exact ih b hb

theorem parseWords_encode (ws rest : List Nat) (h : ∀ w ∈ ws, w < 2 ^ 256) :
    parseWords ws.length ((ws.map word).flatten ++ rest) = some (ws, rest) := by
  induction ws with
  | nil => simp [parseWords]
  | cons w ws ih =>
    have hw : w < 2 ^ 256 := h w (by simp)
    have hws : ∀ x ∈ ws, x < 2 ^ 256 := fun x hx => h x (by simp [hx])
    simp only [List.map_cons, List.flatten_cons, List.length_cons, List.append_assoc]
    have hlen : 32 ≤ (word w ++ ((ws.map word).flatten ++ rest)).length := by
      simp [word_length]
    rw [parseWords, if_pos hlen, drop_append_len _ _ (word_length w), ih hws,
        take_append_len _ _ (word_length w), bytesToNat_word_of_lt w hw]

theorem parseWords_inv (k : Nat) (bs : List Nat) (ws rest : List Nat)
    (hlt : ∀ b ∈ bs, b < 256)
    (h : parseWords k bs = some (ws, rest)) :
    bs = (ws.map word).flatten ++ rest ∧ ws.length = k ∧
      (∀ w ∈ ws, w < 2 ^ 256) ∧ (∀ b ∈ rest, b < 256) := by
  induction k generalizing bs ws with
  | zero =>
    simp only [parseWords, Option.some.injEq, Prod.mk.injEq] at h
    obtain ⟨h1, h2⟩ := h
    subst h1; subst h2
    simpa using hlt
  | succ k ih =>
    rw [parseWords] at h
    split at h
    case isFalse => exact absurd h (by simp)
    case isTrue h32 =>
      cases hp : parseWords k (bs.drop 32) with
      | none => rw [hp] at h; exact absurd h (by simp)
      | some pr =>
        obtain ⟨ws', rest'⟩ := pr
        rw [hp] at h
        simp only [Option.some.injEq, Prod.mk.injEq] at h
        obtain ⟨hws, hrest⟩ := h
        subst hrest
        obtain ⟨hbs, hlen, hwlt, hrlt⟩ :=
          ih (bs.drop 32) ws' (fun b hb => hlt b (List.drop_subset _ _ hb)) hp
        have hword : word (bytesToNat (bs.take 32)) = bs.take 32 :=
          word_readWord bs h32 hlt
        refine ⟨?_, ?_, ?_, hrlt⟩
        · rw [← hws]
          simp only [List.map_cons, List.flatten_cons, List.append_assoc]
          rw [hword, ← hbs, List.take_append_drop]
        · rw [← hws]; simp [hlen]
        · rw [← hws]
          intro w hw
          rcases List.mem_cons.mp hw with hw | hw
          · subst hw
            have := readWord_lt bs h32 hlt
            rwa [readWord] at this
          · exact hwlt w hw

theorem pad_le (n : Nat) : n ≤ (n + 31) / 32 * 32 := by omega

theorem encBytes_length (bs : List Nat) :
    (encBytes bs).length = 32 + (bs.length + 31) / 32 * 32 := by
  have := pad_le bs.length
  simp [encBytes, word_length, List.length_replicate]
  omega

theorem encBytes_lt (bs : List Nat) (h : ∀ b ∈ bs, b < 256) :
    ∀ b ∈ encBytes bs, b < 256 := by
  intro b hb
  simp only [encBytes, List.append_assoc, List.mem_append] at hb
  rcases hb with hb | hb | hb
  · exact word_lt _ b hb
  · exact h b hb
  · rw [List.eq_of_mem_replicate hb]; norm_num

theorem parseBytesItems_encode (ps : List (List Nat)) (rest : List Nat)
    (h : ∀ p ∈ ps, p.length < 2 ^ 256 ∧ ∀ b ∈ p, b < 256) :
    parseBytesItems ps.length ((ps.map encBytes).flatten ++ rest)
      = some (ps, rest) := by
  induction ps with
  | nil => simp [parseBytesItems]
  | cons p ps ih =>
    obtain ⟨hplen, _⟩ := h p (by simp)
    have hps : ∀ q ∈ ps, q.length < 2 ^ 256 ∧ ∀ b ∈ q, b < 256 :=
      fun q hq => h q (by simp [hq])
    have hple : p.length ≤ (p.length + 31) / 32 * 32 := pad_le p.length
    set c : Nat := (p.length + 31) / 32 * 32 - p.length with hc
    set R : List Nat := (ps.map encBytes).flatten ++ rest with hR
    have hbs : ((p :: ps).map encBytes).flatten ++ rest
        = word p.length ++ (p ++ (List.replicate c 0 ++ R)) := by
      simp [encBytes, List.append_assoc, hR]
    have hlen32 : 32 ≤ (word p.length ++ (p ++ (List.replicate c 0 ++ R))).length := by
      simp [word_length]
    have htake32 : (word p.length ++ (p ++ (List.replicate c 0 ++ R))).take 32
        = word p.length := take_append_len _ _ (word_length p.length)
    have hdrop32 : (word p.length ++ (p ++ (List.replicate c 0 ++ R))).drop 32
        = p ++ (List.replicate c 0 ++ R) := drop_append_len _ _ (word_length p.length)
    have hpc : p.length + c = (p.length + 31) / 32 * 32 := by omega
    have hbody_len : (p.length + 31) / 32 * 32 ≤ (p ++ (List.replicate c 0 ++ R)).length := by
      simp [List.length_replicate]
      omega
    have htakepad : (p ++ (List.replicate c 0 ++ R)).take ((p.length + 31) / 32 * 32)
        = p ++ List.replicate c 0 :=
      take_append₂ _ _ _ (by simp [List.length_replicate, hpc])
    have hdroppad : (p ++ (List.replicate c 0 ++ R)).drop ((p.length + 31) / 32 * 32)
        = R := drop_append₂ _ _ _ (by simp [List.length_replicate, hpc])
    have hzeros : ∀ b ∈ ((p ++ (List.replicate c 0 ++ R)).take
        ((p.length + 31) / 32 * 32)).drop p.length, b = 0 := by
      rw [htakepad, drop_append_len _ _ rfl]
      intro b hb
      exact List.eq_of_mem_replicate hb
    have htakelen : (p ++ (List.replicate c 0 ++ R)).take p.length = p :=
      take_append_len _ _ rfl
    rw [hbs, List.length_cons, parseBytesItems]
    rw [if_pos hlen32]
    simp only [htake32, hdrop32, bytesToNat_word_of_lt _ hplen]
    rw [if_pos hbody_len, if_pos hzeros, hdroppad, ih hps, htakelen]

theorem parseBytesItems_inv (k : Nat) (bs : List Nat)
    (items : List (List Nat)) (rest : List Nat)
    (hlt : ∀ b ∈ bs, b < 256)
    (h : parseBytesItems k bs = some (items, rest)) :
    bs = (items.map encBytes).flatten ++ rest ∧ items.length = k ∧
      (∀ p ∈ items, p.length < 2 ^ 256 ∧ ∀ b ∈ p, b < 256) ∧
      (∀ b ∈ rest, b < 256) := by
  induction k generalizing bs items with
  | zero =>
    simp only [parseBytesItems, Option.some.injEq, Prod.mk.injEq] at h
    obtain ⟨h1, h2⟩ := h
    subst h1; subst h2
    simpa using hlt
  | succ k ih =>
    rw [parseBytesItems] at h
    split at h
    case isFalse => exact absurd h (by simp)
    case isTrue h32 =>
      simp only at h
      split at h
      case isFalse => exact absurd h (by simp)
      case isTrue hpad =>
        split at h
        case isFalse => exact absurd h (by simp)
        case isTrue hzeros =>
          set len : Nat := bytesToNat (bs.take 32) with hlendef
          set padded : Nat := (len + 31) / 32 * 32 with hpaddef
          set body : List Nat := bs.drop 32 with hbodydef
          cases hp : parseBytesItems k (body.drop padded) with
          | none => rw [hp] at h; exact absurd h (by simp)
          | some pr =>
            obtain ⟨items', rest'⟩ := pr
            rw [hp] at h
            simp only [Option.some.injEq, Prod.mk.injEq] at h
            obtain ⟨hitems, hrest⟩ := h
            subst hrest
            have hbodylt : ∀ b ∈ body, b < 256 :=
              fun b hb => hlt b (List.drop_subset _ _ hb)
            obtain ⟨hbody2, hlen', hwf', hrlt⟩ :=
              ih (body.drop padded) items'
                (fun b hb => hbodylt b (List.drop_subset _ _ hb)) hp
            have hitem_len : (body.take len).length = len := by
              have hple : len ≤ padded := pad_le len
              simp [List.length_take]
              omega
            have hword : word len = bs.take 32 := by
              rw [hlendef]
              exact word_readWord bs h32 hlt
            -- the padding segment is literally a replicate of zeros
            have hpadlen : ((body.take padded).drop len).length = padded - len := by
              simp [List.length_drop, List.length_take]
              omega
            have hpadrep : (body.take padded).drop len
                = List.replicate (padded - len) 0 := by
              rw [List.eq_replicate_iff]
              exact ⟨hpadlen, hzeros⟩
            have hple2 : len ≤ padded := by
              rw [hpaddef]; exact pad_le len
            have h3 : (body.take padded).take len = body.take len := by
              rw [List.take_take, Nat.min_eq_left hple2]
            have hbody_split : body = body.take len ++
                (List.replicate (padded - len) 0 ++ body.drop padded) := by
              conv_lhs => rw [← List.take_append_drop padded body,
                ← List.take_append_drop len (body.take padded)]
              rw [h3, hpadrep, List.append_assoc]
            have hlen_lt : len < 2 ^ 256 := by
              have := readWord_lt bs h32 hlt
              rwa [readWord, ← hlendef] at this
            have henc : encBytes (body.take len)
                = bs.take 32 ++ (body.take len ++ List.replicate (padded - len) 0) := by
              rw [encBytes, hitem_len, hword, List.append_assoc]
            refine ⟨?_, ?_, ?_, hrlt⟩
            · rw [← hitems]
              simp only [List.map_cons, List.flatten_cons, List.append_assoc]
              calc bs = bs.take 32 ++ body := by
                    rw [hbodydef]
                    exact (List.take_append_drop 32 bs).symm
                _ = bs.take 32 ++ (body.take len ++
                      (List.replicate (padded - len) 0 ++ body.drop padded)) :=
                    congrArg (bs.take 32 ++ ·) hbody_split
                _ = bs.take 32 ++ (body.take len ++
                      (List.replicate (padded - len) 0 ++
                        ((List.map encBytes items').flatten ++ rest'))) := by
                    rw [hbody2]
                _ = encBytes (body.take len) ++
                      ((List.map encBytes items').flatten ++ rest') := by
                    rw [henc]
                    simp [List.append_assoc]
            · rw [← hitems]; simp [hlen']
            · rw [← hitems]
              intro q hq
              rcases List.mem_cons.mp hq with hq | hq
              · subst hq
                refine ⟨by rwa [hitem_len], ?_⟩
                intro b hb
                exact hbodylt b (List.take_subset _ _ hb)
              · exact hwf' q hq

theorem encAddrArray_length (ts : List Nat) :
    (encAddrArray ts).length = 32 + 32 * ts.length := by
  rw [encAddrArray, List.length_append, word_length, flatten_map_word_length]

theorem encAddrArray_lt (ts : List Nat) : ∀ b ∈ encAddrArray ts, b < 256 := by
  intro b hb
  simp only [encAddrArray, List.mem_append] at hb
  rcases hb with hb | hb
  · exact word_lt _ b hb
  · exact flatten_map_word_lt ts b hb

theorem bytesOffsetsFrom_length (off : Nat) (ps : List (List Nat)) :
    (bytesOffsetsFrom off ps).length = ps.length := by
  induction ps generalizing off with
  | nil => rfl
  | cons p ps ih => simp [bytesOffsetsFrom, ih]

theorem flatten_map_encBytes_lt (ps : List (List Nat))
    (h : ∀ p ∈ ps, ∀ b ∈ p, b < 256) :
    ∀ b ∈ (ps.map encBytes).flatten, b < 256 := by
  induction ps with
  | nil => simp
  | cons p ps ih =>
    intro b hb
    simp only [List.map_cons, List.flatten_cons, List.mem_append] at hb
    rcases hb with hb | hb
    · exact encBytes_lt p (h p (by simp)) b hb
    · exact ih (fun q hq => h q (by simp [hq])) b hb

theorem encBytesArray_lt (ps : List (List Nat))
    (h : ∀ p ∈ ps, ∀ b ∈ p, b < 256) :
    ∀ b ∈ encBytesArray ps, b < 256 := by
  intro b hb
  simp only [encBytesArray, List.append_assoc, List.mem_append] at hb
  rcases hb with hb | hb | hb
  · exact word_lt _ b hb
  · exact flatten_map_word_lt _ b hb
  · exact flatten_map_encBytes_lt ps h b hb

theorem encodeArbitrageParams_lt (p : ArbParams)
    (h : ∀ q ∈ p.payloads, ∀ b ∈ q, b < 256) :
    ∀ b ∈ encodeArbitrageParams p, b < 256 := by
  intro b hb
  simp only [encodeArbitrageParams, List.append_assoc, List.mem_append] at hb
  rcases hb with hb | hb | hb | hb | hb
  · exact word_lt _ b hb
  · exact word_lt _ b hb
  · exact word_lt _ b hb
  · exact encAddrArray_lt _ b hb
  · exact encBytesArray_lt _ h b hb

/-- Forward round trip: decoding a canonically encoded well-formed
triple recovers the triple. -/
theorem abiDecode_encode (p : ArbParams) (h : wfParams p) :
    abiDecodeParams (encodeArbitrageParams p) = some p := by
  obtain ⟨hmp, htlt, htlen, hplen, hofflt, hpwf⟩ := h
  set A : List Nat := encAddrArray p.targets with hA
  set B : List Nat := encBytesArray p.payloads with hB
  have h2160 : (2 : Nat) ^ 160 < 2 ^ 256 := by norm_num
  have htlt' : ∀ t ∈ p.targets, t < 2 ^ 256 :=
    fun t ht => lt_trans (htlt t ht) h2160
  have hblob : encodeArbitrageParams p
      = word p.minProfit ++ (word 96 ++ (word (96 + A.length) ++ (A ++ B))) := by
    simp [encodeArbitrageParams, List.append_assoc, hA, hB]
  have halllt : ∀ b ∈ encodeArbitrageParams p, b < 256 :=
    encodeArbitrageParams_lt p (fun q hq => (hpwf q hq).2)
  have hAlen : A.length = 32 + 32 * p.targets.length := by
    rw [hA]; exact encAddrArray_length p.targets
  have hoff2lt : 96 + A.length < 2 ^ 256 := by
    rw [hAlen]; omega
  have hdrop32 : (encodeArbitrageParams p).drop 32
      = word 96 ++ (word (96 + A.length) ++ (A ++ B)) := by
    rw [hblob]; exact drop_append_len _ _ (word_length _)
  have hdrop64 : (encodeArbitrageParams p).drop 64
      = word (96 + A.length) ++ (A ++ B) := by
    have : (encodeArbitrageParams p).drop 64
        = ((encodeArbitrageParams p).drop 32).drop 32 := by
      rw [List.drop_drop]
    rw [this, hdrop32]
    exact drop_append_len _ _ (word_length _)
  have hdrop96 : (encodeArbitrageParams p).drop 96 = A ++ B := by
    have : (encodeArbitrageParams p).drop 96
        = ((encodeArbitrageParams p).drop 64).drop 32 := by
      rw [List.drop_drop]
    rw [this, hdrop64]
    exact drop_append_len _ _ (word_length _)
  have hlen_blob : 96 ≤ (encodeArbitrageParams p).length := by
    rw [hblob]
    simp [word_length]
    omega
  have h96 : readWord ((encodeArbitrageParams p).drop 32) = 96 := by
    rw [hdrop32]
    exact readWord_word_append_of_lt _ _ (by norm_num)
  have hoff2 : readWord ((encodeArbitrageParams p).drop 64) = 96 + A.length := by
    rw [hdrop64]
    exact readWord_word_append_of_lt _ _ hoff2lt
  have hAB : A ++ B = word p.targets.length ++ ((p.targets.map word).flatten ++ B) := by
    rw [hA, encAddrArray, List.append_assoc]
  have hntlt : p.targets.length < 2 ^ 256 := by omega
  have hreadn : readWord (A ++ B) = p.targets.length := by
    rw [hAB]
    exact readWord_word_append_of_lt _ _ hntlt
  have hABlen : 32 ≤ (A ++ B).length := by
    rw [hAB]; simp [word_length]
  have hABdrop : (A ++ B).drop 32 = (p.targets.map word).flatten ++ B := by
    rw [hAB]; exact drop_append_len _ _ (word_length _)
  have hpw1 : parseWords p.targets.length ((A ++ B).drop 32) = some (p.targets, B) := by
    rw [hABdrop]
    exact parseWords_encode p.targets B htlt'
  set offs : List Nat := bytesOffsetsFrom (32 * p.payloads.length) p.payloads with hoffs
  have hoffslen : offs.length = p.payloads.length := by
    rw [hoffs]; exact bytesOffsetsFrom_length _ _
  have hBsplit : B = word p.payloads.length
      ++ ((offs.map word).flatten ++ (p.payloads.map encBytes).flatten) := by
    rw [hB, encBytesArray, List.append_assoc, hoffs]
  have hreadm : readWord B = p.payloads.length := by
    rw [hBsplit]
    exact readWord_word_append_of_lt _ _ hplen
  have hBlen : 32 ≤ B.length := by
    rw [hBsplit]; simp [word_length]
  have hBdrop : B.drop 32 = (offs.map word).flatten ++ (p.payloads.map encBytes).flatten := by
    rw [hBsplit]; exact drop_append_len _ _ (word_length _)
  have hpw2 : parseWords p.payloads.length (B.drop 32)
      = some (offs, (p.payloads.map encBytes).flatten) := by
    rw [hBdrop, ← hoffslen]
    exact parseWords_encode offs _ (by rw [hoffs]; exact hofflt)
  have hpb : parseBytesItems offs.length ((p.payloads.map encBytes).flatten)
      = some (p.payloads, []) := by
    rw [hoffslen]
    have := parseBytesItems_encode p.payloads [] hpwf
    rwa [List.append_nil] at this
  have hmp' : readWord (encodeArbitrageParams p) = p.minProfit := by
    rw [hblob]
    exact readWord_word_append_of_lt _ _ hmp
  -- now evaluate the decoder
  rw [abiDecodeParams]
  rw [if_neg (not_not_intro halllt),
      if_neg (by omega : ¬ (encodeArbitrageParams p).length < 96)]
  rw [if_neg (by rw [h96]; exact fun hc => hc rfl)]
  simp only [hdrop96, hoff2, hmp']
  rw [if_neg (by omega : ¬ (A ++ B).length < 32)]
  simp only [hreadn, hpw1]
  rw [if_neg (not_not_intro htlt)]
  rw [if_neg (by rw [hAlen]; exact fun hc => hc (by omega))]
  rw [if_neg (by omega : ¬ B.length < 32)]
  simp only [hreadm, hpw2, hpb]
  rw [if_pos ⟨by rw [hoffslen], trivial⟩]

/-- Reverse round trip: any blob accepted by the decoder is exactly the
canonical encoding of the decoded triple. -/
theorem encode_abiDecode (blob : List Nat) (p : ArbParams)
    (h : abiDecodeParams blob = some p) :
    encodeArbitrageParams p = blob := by
  rw [abiDecodeParams] at h
  split at h
  · exact absurd h (by simp)
  split at h
  · exact absurd h (by simp)
  split at h
  · exact absurd h (by simp)
  split at h
  · exact absurd h (by simp)
  rename_i hall' hlen96' h96ne htail32'
  split at h
  · exact absurd h (by simp)
  rename_i targets rest hpw1
  split at h
  · exact absurd h (by simp)
  split at h
  · exact absurd h (by simp)
  split at h
  · exact absurd h (by simp)
  rename_i htgt' hoff2ne hrest32'
  split at h
  · exact absurd h (by simp)
  rename_i offs rest2 hpw2
  split at h
  · exact absurd h (by simp)
  rename_i payloads rest3 hpb
  split at h
  · rename_i hfin
    obtain ⟨hoffs_eq, hrest3⟩ := hfin
    simp only [Option.some.injEq] at h
    subst h
    subst hrest3
    have hall : ∀ b ∈ blob, b < 256 := not_not.mp hall'
    have hlen96 : 96 ≤ blob.length := by omega
    have h96 : readWord (blob.drop 32) = 96 := not_ne_iff.mp h96ne
    have htail32 : 32 ≤ (blob.drop 96).length := by omega
    have hoff2 : readWord (blob.drop 64) = 128 + 32 * targets.length :=
      not_ne_iff.mp hoff2ne
    have hrest32 : 32 ≤ rest.length := by omega
    have htail_lt : ∀ b ∈ blob.drop 96, b < 256 :=
      fun b hb => hall b (List.drop_subset _ _ hb)
    obtain ⟨htail_eq, hnlen, _, hrest_lt⟩ :=
      parseWords_inv _ _ _ _ (fun b hb => htail_lt b (List.drop_subset _ _ hb)) hpw1
    obtain ⟨hrest_eq, hmlen, _, hrest2_lt⟩ :=
      parseWords_inv _ _ _ _ (fun b hb => hrest_lt b (List.drop_subset _ _ hb)) hpw2
    obtain ⟨hrest2_eq, hpllen, hplwf, _⟩ :=
      parseBytesItems_inv _ _ _ _ hrest2_lt hpb
    rw [List.append_nil] at hrest2_eq
    -- reconstruct the trailing parts of the blob
    have htail_take : (blob.drop 96).take 32 = word targets.length := by
      rw [hnlen]
      exact (word_readWord _ htail32 htail_lt).symm
    have htailA : blob.drop 96 = encAddrArray targets ++ rest := by
      conv_lhs => rw [← List.take_append_drop 32 (blob.drop 96)]
      rw [htail_take, htail_eq, encAddrArray, List.append_assoc]
    have hrest_take : rest.take 32 = word offs.length := by
      rw [hmlen]
      exact (word_readWord _ hrest32 hrest_lt).symm
    have hrestB : rest = encBytesArray payloads := by
      conv_lhs => rw [← List.take_append_drop 32 rest]
      rw [hrest_take, hrest_eq, hrest2_eq, encBytesArray, hpllen, ← hoffs_eq,
        List.append_assoc]
    -- reconstruct the head words of the blob
    have hblob32 : 32 ≤ blob.length := by omega
    have hdrop32_len : 32 ≤ (blob.drop 32).length := by
      simp [List.length_drop]; omega
    have hdrop64_len : 32 ≤ (blob.drop 64).length := by
      simp [List.length_drop]; omega
    have h64 : (blob.drop 32).drop 32 = blob.drop 64 := by
      rw [List.drop_drop]
    have h96d : (blob.drop 64).drop 32 = blob.drop 96 := by
      rw [List.drop_drop]
    have hb1 : blob.take 32 = word (readWord blob) :=
      (word_readWord blob hblob32 hall).symm
    have hb2 : (blob.drop 32).take 32 = word 96 := by
      rw [← h96]
      exact (word_readWord _ hdrop32_len
        (fun b hb => hall b (List.drop_subset _ _ hb))).symm
    have hb3 : (blob.drop 64).take 32 = word (128 + 32 * targets.length) := by
      rw [← hoff2]
      exact (word_readWord _ hdrop64_len
        (fun b hb => hall b (List.drop_subset _ _ hb))).symm
    have e1 : blob.drop 64 = (blob.drop 64).take 32 ++ blob.drop 96 := by
      conv_lhs => rw [← List.take_append_drop 32 (blob.drop 64)]
      rw [h96d]
    have e2 : blob.drop 32 = (blob.drop 32).take 32 ++ blob.drop 64 := by
      conv_lhs => rw [← List.take_append_drop 32 (blob.drop 32)]
      rw [h64]
    have e3 : blob = blob.take 32 ++ blob.drop 32 :=
      (List.take_append_drop 32 blob).symm
    have hlen128 : 96 + (encAddrArray targets).length = 128 + 32 * targets.length := by
      rw [encAddrArray_length]; omega
    simp only [encodeArbitrageParams, List.append_assoc]
    rw [hlen128, ← hb1, ← hb2, ← hb3, ← hrestB, ← htailA, ← e1, ← e2, ← e3]
  · exact absurd h (by simp)

/-- The attempted invocations are positional (target, payload) pairs:
a prefix of `targets.zip payloads`. -/
theorem runSwaps_invocations_zipped (callOk : Nat → List Nat → Bool)
    (ts : List Nat) (ds : List (List Nat)) :
    (runSwaps callOk ts ds).2 <+: ts.zip ds := by
  induction ds generalizing ts with
  | nil =>
    cases ts <;> simp [runSwaps]
  | cons d ds ih =>
    cases ts with
    | nil => simp [runSwaps]
    | cons t ts =>
      by_cases hc : callOk t d
      · simp only [runSwaps, if_pos hc, List.zip_cons_cons]
        obtain ⟨u, hu⟩ := ih ts
        exact ⟨u, by rw [List.cons_append, hu]⟩
      · simp only [runSwaps, if_neg hc, List.zip_cons_cons]
        exact ⟨ts.zip ds, rfl⟩

/-- The swap loop completes only when the payloads do not outnumber
the targets. -/
theorem runSwaps_none_length (callOk : Nat → List Nat → Bool)
    (ts : List Nat) (ds : List (List Nat))
    (h : (runSwaps callOk ts ds).1 = none) : ds.length ≤ ts.length := by
  induction ds generalizing ts with
  | nil => simp
  | cons d ds ih =>
    cases ts with
    | nil => simp [runSwaps] at h
    | cons t ts =>
      by_cases hc : callOk t d
      · simp only [runSwaps, if_pos hc] at h
        simpa using ih ts h
      · simp [runSwaps, if_neg hc] at h

/-- Reduction of an authorized session on a decodable blob. -/
theorem executeOperation_authorized_eq (cfg : SettlementConfig) (env : TradeEnv)
    (amount premium : Nat) (blob : List Nat) (st : ChainState) (prms : ArbParams)
    (hdec : abiDecodeParams blob = some prms) :
    executeOperation cfg env cfg.pool amount premium cfg.owner blob st
      = match runSwaps env.callOk prms.targets prms.payloads with
        | (some r, invs) => ⟨.reverted r, st, invs⟩
        | (none, invs) =>
          ⟨(settle prms.minProfit amount premium env.finalBalance st).1,
           (settle prms.minProfit amount premium env.finalBalance st).2, invs⟩ := by
  rw [executeOperation, if_neg (not_not_intro rfl), if_neg (not_not_intro rfl)]
  simp only [hdec]

/-- C2: for every invocation of `executeOperation`, if the caller is
not the configured pool or the initiator is not the configured
operator, the session reverts with an authorization failure before any
funds move: the state is returned unchanged and no trade invocation is
attempted, for every blob (decoded or not) and every trade
environment. -/
theorem executeOperation_unauthorized_no_effect
    (cfg : SettlementConfig) (env : TradeEnv)
    (caller amount premium initiator : Nat) (blob : List Nat) (st : ChainState)
    (h : caller ≠ cfg.pool ∨ initiator ≠ cfg.owner) :
    ∃ r : RevertReason, r.isUnauthorized = true ∧
      executeOperation cfg env caller amount premium initiator blob st
        = ⟨.reverted r, st, []⟩ := by
  by_cases hc : caller = cfg.pool
  · have hi : initiator ≠ cfg.owner := by
      rcases h with h | h
      · exact absurd hc h
      · exact h
    refine ⟨.unauthorizedInitiator, rfl, ?_⟩
    rw [executeOperation, if_neg (not_not_intro hc), if_pos hi]
  · exact ⟨.unauthorized, rfl, by rw [executeOperation, if_pos hc]⟩

/-- Witness for `executeOperation_unauthorized_no_effect`: caller 3 is
not the configured pool 2, so the session reverts with an
authorization failure and leaves the state unchanged. -/
theorem executeOperation_unauthorized_no_effect_witness :
    ∃ r : RevertReason, r.isUnauthorized = true ∧
      executeOperation ⟨1, 2⟩ ⟨fun _ _ => true, 0⟩ 3 10 1 1 [] ⟨0, 0, 0⟩
        = ⟨.reverted r, ⟨0, 0, 0⟩, []⟩ :=
  executeOperation_unauthorized_no_effect ⟨1, 2⟩ ⟨fun _ _ => true, 0⟩ 3 10 1 1 []
    ⟨0, 0, 0⟩ (Or.inl (by decide))

/-- C3: an authorized session that completes its trade invocations
reverts with `InsufficientRepayment` and keeps the state unchanged when
the final balance is below `amount + premium`; otherwise it completes
and the pool's allowance is exactly `amount + premium`. -/
theorem executeOperation_solvency_check
    (cfg : SettlementConfig) (env : TradeEnv) (amount premium : Nat)
    (blob : List Nat) (st : ChainState) (prms : ArbParams)
    (hdec : abiDecodeParams blob = some prms)
    (hsw : (runSwaps env.callOk prms.targets prms.payloads).1 = none)
    (hov : amount + premium < 2 ^ 256) :
    (env.finalBalance < amount + premium →
      executeOperation cfg env cfg.pool amount premium cfg.owner blob st
        = ⟨.reverted .insufficientRepayment, st,
            (runSwaps env.callOk prms.targets prms.payloads).2⟩) ∧
    (amount + premium ≤ env.finalBalance →
      (∃ ev, (executeOperation cfg env cfg.pool amount premium cfg.owner blob st).result
          = .completed ev) ∧
      (executeOperation cfg env cfg.pool amount premium cfg.owner blob st).state.poolAllowance
          = amount + premium) := by
  rw [executeOperation_authorized_eq cfg env amount premium blob st prms hdec]
  cases hrs : runSwaps env.callOk prms.targets prms.payloads with
  | mk fst invs =>
    rw [hrs] at hsw
    simp only at hsw
    subst hsw
    dsimp only
    constructor
    · intro hlt
      rw [settle, if_neg (by omega), if_pos hlt]
    · intro hge
      rw [settle, if_neg (by omega), if_neg (by omega)]
      by_cases h1 : amount + premium < env.finalBalance
      · rw [if_pos h1]
        by_cases h2 : prms.minProfit ≤ env.finalBalance - (amount + premium)
        · rw [if_pos h2]
          exact ⟨⟨_, rfl⟩, rfl⟩
        · rw [if_neg h2]
          exact ⟨⟨_, rfl⟩, rfl⟩
      · rw [if_neg h1]
        exact ⟨⟨_, rfl⟩, rfl⟩

set_option maxRecDepth 100000 in
/-- Witness for `executeOperation_solvency_check`: final balance 5 is
below `10 + 1`, so the concrete session reverts with
`InsufficientRepayment` and the state is unchanged. -/
theorem executeOperation_solvency_check_witness :
    executeOperation ⟨1, 2⟩ ⟨fun _ _ => true, 5⟩ 2 10 1 1
        (encodeArbitrageParams ⟨0, [], []⟩) ⟨0, 0, 0⟩
      = ⟨.reverted .insufficientRepayment, ⟨0, 0, 0⟩, []⟩ := by
  have h := executeOperation_solvency_check ⟨1, 2⟩ ⟨fun _ _ => true, 5⟩ 10 1
      (encodeArbitrageParams ⟨0, [], []⟩) ⟨0, 0, 0⟩ ⟨0, [], []⟩
      (by decide) (by decide) (by norm_num)
  exact h.1 (by norm_num)

/-- C1 (amended): in a session that reaches the distribution step with
final balance `B` and debt `amount + premium`, the surplus
`B - (amount + premium)` is transferred to the operator and a profit
fact recorded exactly when the surplus is positive and at least the
decoded minimum profit; otherwise (zero surplus, or surplus below the
threshold) nothing is transferred, no profit fact is recorded, and the
surplus remains in the contract. -/
theorem executeOperation_distribute_amended
    (cfg : SettlementConfig) (env : TradeEnv) (amount premium : Nat)
    (blob : List Nat) (st : ChainState) (prms : ArbParams)
    (hdec : abiDecodeParams blob = some prms)
    (hsw : (runSwaps env.callOk prms.targets prms.payloads).1 = none)
    (hov : amount + premium < 2 ^ 256)
    (hsolv : amount + premium ≤ env.finalBalance) :
    (amount + premium < env.finalBalance ∧
        prms.minProfit ≤ env.finalBalance - (amount + premium) →
      executeOperation cfg env cfg.pool amount premium cfg.owner blob st
        = ⟨.completed (some (env.finalBalance - (amount + premium))),
            ⟨amount + premium,
             st.ownerBal + (env.finalBalance - (amount + premium)),
             amount + premium⟩,
            (runSwaps env.callOk prms.targets prms.payloads).2⟩) ∧
    (¬ (amount + premium < env.finalBalance ∧
        prms.minProfit ≤ env.finalBalance - (amount + premium)) →
      executeOperation cfg env cfg.pool amount premium cfg.owner blob st
        = ⟨.completed none, ⟨env.finalBalance, st.ownerBal, amount + premium⟩,
            (runSwaps env.callOk prms.targets prms.payloads).2⟩) := by
  rw [executeOperation_authorized_eq cfg env amount premium blob st prms hdec]
  cases hrs : runSwaps env.callOk prms.targets prms.payloads with
  | mk fst invs =>
    rw [hrs] at hsw
    simp only at hsw
    subst hsw
    dsimp only
    constructor
    · rintro ⟨h1, h2⟩
      rw [settle, if_neg (by omega), if_neg (by omega), if_pos h1, if_pos h2]
    · intro hneg
      rw [settle, if_neg (by omega), if_neg (by omega)]
      by_cases h1 : amount + premium < env.finalBalance
      · have h2 : ¬ prms.minProfit ≤ env.finalBalance - (amount + premium) :=
          fun h2 => hneg ⟨h1, h2⟩
        rw [if_pos h1, if_neg h2]
      · rw [if_neg h1]

set_option maxRecDepth 100000 in
/-- Witness for `executeOperation_distribute_amended`: balance 20,
debt 11, minimum profit 0 — the surplus 9 is transferred to the
operator and the profit fact `ArbitrageProfit 9` is recorded. -/
theorem executeOperation_distribute_amended_witness :
    executeOperation ⟨1, 2⟩ ⟨fun _ _ => true, 20⟩ 2 10 1 1
        (encodeArbitrageParams ⟨0, [], []⟩) ⟨0, 5, 0⟩
      = ⟨.completed (some 9), ⟨11, 14, 11⟩, []⟩ := by
  have h := executeOperation_distribute_amended ⟨1, 2⟩ ⟨fun _ _ => true, 20⟩ 10 1
      (encodeArbitrageParams ⟨0, [], []⟩) ⟨0, 5, 0⟩ ⟨0, [], []⟩
      (by decide) (by decide) (by norm_num) (by norm_num)
  exact h.1 (by norm_num)

set_option maxRecDepth 100000 in
/-- C1 counterexample: a session that reaches distribution with final
balance 11, debt `10 + 1` and decoded minimum profit 0 satisfies
`B - (amount + premium) = 0 ≥ 0 = minimumProfit`, yet the source
transfers nothing and records no profit fact (it completes with no
`ArbitrageProfit` event and the operator balance unchanged), because
distribution is additionally guarded by `finalBalance > totalDebt`. -/
theorem executeOperation_zero_surplus_counterexample :
    11 - (10 + 1) ≥ 0 ∧
    executeOperation ⟨1, 2⟩ ⟨fun _ _ => true, 11⟩ 2 10 1 1
        (encodeArbitrageParams ⟨0, [], []⟩) ⟨11, 0, 0⟩
      = ⟨.completed none, ⟨11, 0, 11⟩, []⟩ := by decide

/-- C6 (amended): decoding does not reject blobs whose target and
payload sequences differ in length.  Instead, in every authorized
session on a decodable blob, each attempted trade invocation is a
positional `(targets[i], payloads[i])` pair with `i` in bounds of both
sequences (the attempted invocations form a prefix of
`targets.zip payloads`), and the session completes only when the
payloads do not outnumber the targets. -/
theorem executeOperation_trade_bounds_amended
    (cfg : SettlementConfig) (env : TradeEnv) (amount premium : Nat)
    (blob : List Nat) (st : ChainState) (prms : ArbParams)
    (hdec : abiDecodeParams blob = some prms) :
    (executeOperation cfg env cfg.pool amount premium cfg.owner blob st).invocations
        <+: prms.targets.zip prms.payloads ∧
    (∀ ev, (executeOperation cfg env cfg.pool amount premium cfg.owner blob st).result
        = .completed ev → prms.payloads.length ≤ prms.targets.length) := by
  rw [executeOperation_authorized_eq cfg env amount premium blob st prms hdec]
  cases hrs : runSwaps env.callOk prms.targets prms.payloads with
  | mk fst invs =>
    have hpre : invs <+: prms.targets.zip prms.payloads := by
      have h := runSwaps_invocations_zipped env.callOk prms.targets prms.payloads
      rwa [hrs] at h
    cases fst with
    | some r =>
      dsimp only
      exact ⟨hpre, fun ev hev => by simp at hev⟩
    | none =>
      dsimp only
      refine ⟨hpre, fun ev _ => ?_⟩
      exact runSwaps_none_length env.callOk _ _ (by rw [hrs])

set_option maxRecDepth 100000 in
/-- Witness for `executeOperation_trade_bounds_amended` at a concrete
session whose blob decodes to one target and no payloads. -/
theorem executeOperation_trade_bounds_amended_witness :
    (executeOperation ⟨1, 2⟩ ⟨fun _ _ => true, 11⟩ 2 10 1 1
        (encodeArbitrageParams ⟨0, [5], []⟩) ⟨11, 0, 0⟩).invocations
      <+: ([5] : List Nat).zip ([] : List (List Nat)) ∧
    (∀ ev, (executeOperation ⟨1, 2⟩ ⟨fun _ _ => true, 11⟩ 2 10 1 1
        (encodeArbitrageParams ⟨0, [5], []⟩) ⟨11, 0, 0⟩).result
      = .completed ev → ([] : List (List Nat)).length ≤ ([5] : List Nat).length) :=
  executeOperation_trade_bounds_amended ⟨1, 2⟩ ⟨fun _ _ => true, 11⟩ 10 1
    (encodeArbitrageParams ⟨0, [5], []⟩) ⟨11, 0, 0⟩ ⟨0, [5], []⟩ (by decide)

set_option maxRecDepth 100000 in
/-- C6 counterexample: the blob encoding one target and zero payloads
decodes to sequences of differing lengths, yet the session is not
rejected: it completes (the surplus targets are simply never
invoked). -/
theorem executeOperation_length_mismatch_counterexample :
    abiDecodeParams (encodeArbitrageParams ⟨0, [5], []⟩) = some ⟨0, [5], []⟩ ∧
    ([5] : List Nat).length ≠ ([] : List (List Nat)).length ∧
    (executeOperation ⟨1, 2⟩ ⟨fun _ _ => true, 11⟩ 2 10 1 1
        (encodeArbitrageParams ⟨0, [5], []⟩) ⟨11, 0, 0⟩).result
      = .completed none := by decide

/-- C5: the instruction blob round-trips byte-exactly between the
off-chain encoder and the on-chain decoder: decoding the encoding of
any well-formed triple yields the original triple, and re-encoding the
decode of any well-formed (canonically encoded) blob yields the blob
itself. -/
theorem instruction_blob_roundtrip :
    (∀ p : ArbParams, wfParams p →
      abiDecodeParams (encodeArbitrageParams p) = some p) ∧
    (∀ (blob : List Nat) (p : ArbParams), abiDecodeParams blob = some p →
      encodeArbitrageParams p = blob) :=
  ⟨abiDecode_encode, encode_abiDecode⟩

set_option maxRecDepth 100000 in
/-- Witness for `instruction_blob_roundtrip` on the triple shape the
bot actually submits (a minimum profit, two router targets, two
payloads). -/
theorem instruction_blob_roundtrip_witness :
    abiDecodeParams (encodeArbitrageParams ⟨7, [5, 9], [[], [1, 2]]⟩)
      = some ⟨7, [5, 9], [[], [1, 2]]⟩ ∧
    encodeArbitrageParams ⟨7, [5, 9], [[], [1, 2]]⟩
      = encodeArbitrageParams ⟨7, [5, 9], [[], [1, 2]]⟩ :=
  ⟨instruction_blob_roundtrip.1 ⟨7, [5, 9], [[], [1, 2]]⟩ (by decide),
   instruction_blob_roundtrip.2 (encodeArbitrageParams ⟨7, [5, 9], [[], [1, 2]]⟩)
     ⟨7, [5, 9], [[], [1, 2]]⟩
     (instruction_blob_roundtrip.1 ⟨7, [5, 9], [[], [1, 2]]⟩ (by decide))⟩

/-- C7: the contract's surface has only two operator-only actions —
`emergencyWithdraw(asset, amount)`, required by the spec and called by
the repository's own test suite, is absent — while the two actions
that do exist (`fundContract`, `withdrawToken`) revert with the
owner-check failure for every non-operator caller, changing no
balance. -/
theorem operator_actions_surface :
    ("emergencyWithdraw" ∉ flashArbitrageExternalFunctions ∧
     "emergencyWithdraw" ∈ testSuiteCalledFunctions) ∧
    (∀ (cfg : SettlementConfig) (caller amount : Nat) (st : TokenState),
      caller = cfg.owner ∨
        (fundContract cfg caller amount st = .error "Only owner" ∧
         withdrawToken cfg caller st = .error "Only owner")) := by
  refine ⟨⟨by decide, by decide⟩, ?_⟩
  intro cfg caller amount st
  by_cases h : caller = cfg.owner
  · exact Or.inl h
  · exact Or.inr ⟨by rw [fundContract, if_pos h], by rw [withdrawToken, if_pos h]⟩

/-- C4: for positive quote outputs, `analyzeOpportunity` returns an
opportunity exactly when the basis-point divergence over the larger
quote reaches 50 and the fee-adjusted profit
`max - min - amount * 9 / 10000` reaches the 0.1-unit threshold; when
an opportunity is returned its `estimatedProfit` equals that formula
exactly, and below the divergence threshold nothing is returned
regardless of absolute amounts. -/
theorem analyzeOpportunity_spec (amount qa qb : Nat) (s1 s2 : String) (tA tB : Nat)
    (_hqa : 0 < qa) (_hqb : 0 < qb) :
    ((analyzeOpportunity amount (qa, s1) (qb, s2) tA tB).isSome ↔
      MIN_PRICE_DIFFERENCE ≤ (max qa qb - min qa qb) * 10000 / max qa qb ∧
      (MIN_PROFIT_WEI : Int)
        ≤ ((max qa qb : Nat) : Int) - ((min qa qb : Nat) : Int)
            - ((amount * 9 / 10000 : Nat) : Int)) ∧
    (∀ o, analyzeOpportunity amount (qa, s1) (qb, s2) tA tB = some o →
      o.estimatedProfit
        = ((max qa qb : Nat) : Int) - ((min qa qb : Nat) : Int)
            - ((amount * 9 / 10000 : Nat) : Int)) := by
  by_cases hlt : qb < qa
  · have hmax : max qa qb = qa := max_eq_left (le_of_lt hlt)
    have hmin : min qa qb = qb := min_eq_right (le_of_lt hlt)
    simp only [analyzeOpportunity, if_pos hlt, hmax, hmin]
    by_cases hd : (qa - qb) * 10000 / qa < MIN_PRICE_DIFFERENCE
    · rw [if_pos hd]
      refine ⟨?_, fun o ho => Option.noConfusion ho⟩
      simp only [Option.isSome_none, Bool.false_eq_true, false_iff]
      rintro ⟨hge, -⟩
      omega
    · rw [if_neg hd]
      by_cases hp : ((qa : Int) - qb - (amount * 9 / 10000 : Nat)) < (MIN_PROFIT_WEI : Int)
      · rw [if_pos hp]
        refine ⟨?_, fun o ho => Option.noConfusion ho⟩
        simp only [Option.isSome_none, Bool.false_eq_true, false_iff]
        rintro ⟨-, hge⟩
        omega
      · rw [if_neg hp]
        refine ⟨?_, ?_⟩
        · simp only [Option.isSome_some, true_iff]
          exact ⟨by omega, by omega⟩
        · intro o ho
          simp only [Option.some.injEq] at ho
          rw [← ho]
  · have hge : qa ≤ qb := not_lt.mp hlt
    have hmax : max qa qb = qb := max_eq_right hge
    have hmin : min qa qb = qa := min_eq_left hge
    simp only [analyzeOpportunity, if_neg hlt, hmax, hmin]
    by_cases hd : (qb - qa) * 10000 / qb < MIN_PRICE_DIFFERENCE
    · rw [if_pos hd]
      refine ⟨?_, fun o ho => Option.noConfusion ho⟩
      simp only [Option.isSome_none, Bool.false_eq_true, false_iff]
      rintro ⟨hge2, -⟩
      omega
    · rw [if_neg hd]
      by_cases hp : ((qb : Int) - qa - (amount * 9 / 10000 : Nat)) < (MIN_PROFIT_WEI : Int)
      · rw [if_pos hp]
        refine ⟨?_, fun o ho => Option.noConfusion ho⟩
        simp only [Option.isSome_none, Bool.false_eq_true, false_iff]
        rintro ⟨-, hge2⟩
        omega
      · rw [if_neg hp]
        refine ⟨?_, ?_⟩
        · simp only [Option.isSome_some, true_iff]
          exact ⟨by omega, by omega⟩
        · intro o ho
          simp only [Option.some.injEq] at ho
          rw [← ho]

/-- Witness for `analyzeOpportunity_spec`, on the spec's concrete
scenario: notional 10 units, quotes 10.00 and 10.60 — an opportunity
is returned. -/
theorem analyzeOpportunity_spec_witness :
    (analyzeOpportunity (10 * 10 ^ 18) (10 * 10 ^ 18, "uniswap")
        (106 * 10 ^ 17, "sushiswap") DAI_ADDR WETH_ADDR).isSome := by
  have h := analyzeOpportunity_spec (10 * 10 ^ 18) (10 * 10 ^ 18) (106 * 10 ^ 17)
      "uniswap" "sushiswap" DAI_ADDR WETH_ADDR (by norm_num) (by norm_num)
  exact h.1.mpr ⟨by decide, by decide⟩

/-- C8: the funding guard is idempotent: with the contract at or above
the 5-DAI minimum it submits no transaction (and an empty transaction
list leaves every balance and allowance unchanged); a non-empty
transaction list is submitted only when the balance is below the
minimum. -/
theorem ensureContractFunding_idempotent (fa contractBal walletBal : Nat) :
    (5 * 10 ^ 18 ≤ contractBal →
      ensureContractFunding fa contractBal walletBal = .ok [] ∧
      ∀ s : FundingState, applyFundingTxs [] s = s) ∧
    (∀ txs, ensureContractFunding fa contractBal walletBal = .ok txs → txs ≠ [] →
      contractBal < 5 * 10 ^ 18) := by
  constructor
  · intro h
    refine ⟨?_, fun s => rfl⟩
    rw [ensureContractFunding, if_neg (by omega)]
  · intro txs htxs hne
    by_cases hb : contractBal < 5 * 10 ^ 18
    · exact hb
    · rw [ensureContractFunding, if_neg hb] at htxs
      simp only [Except.ok.injEq] at htxs
      exact absurd htxs.symm hne

/-- Witness for `ensureContractFunding_idempotent`: at 6 DAI the guard
submits nothing. -/
theorem ensureContractFunding_idempotent_witness :
    ensureContractFunding 7 (6 * 10 ^ 18) 0 = .ok [] :=
  ((ensureContractFunding_idempotent 7 (6 * 10 ^ 18) 0).1 (by norm_num)).1

/-- C10: when the gas-price fetch fails, `getCurrentGasPrice` returns
the fallback 50 gwei, and because 50 exceeds the 25 gwei ceiling the
trading cycle terminates at the gas check: it queries no price oracle
and submits no loan request. -/
theorem gasFetch_failure_halts_cycle (env : CycleEnv) (h : env.gasFetch = none) :
    getCurrentGasPrice env.gasFetch = 50 ∧ executeTradingCycle env = [] := by
  constructor
  · rw [h]; rfl
  · rw [executeTradingCycle, h]
    rw [if_pos (by norm_num [getCurrentGasPrice, MAX_GAS_PRICE_GWEI])]

/-- Witness for `gasFetch_failure_halts_cycle`: a cycle whose gas
fetch fails performs no action even though both venues would quote. -/
theorem gasFetch_failure_halts_cycle_witness :
    getCurrentGasPrice (none : Option ℚ) = 50 ∧
    executeTradingCycle ⟨none, some (10 * 10 ^ 18), some (2 * 10 ^ 18)⟩ = [] :=
  gasFetch_failure_halts_cycle ⟨none, some (10 * 10 ^ 18), some (2 * 10 ^ 18)⟩ rfl

/-- C9 counterexample: from a running orchestrator, an explicit stop
flips the flag and the loop exits without further cycles, but the
5-second `setInterval` restart tick re-invokes `start()` and a further
trading cycle executes after the stop — `STOPPED` is not terminal in
the source. -/
theorem stop_not_terminal_counterexample :
    (botRun ⟨true, true, 0⟩ [.stopSignal, .loopStep]).cycles = 0 ∧
    (botRun ⟨true, true, 0⟩ [.stopSignal, .loopStep]).isRunning = false ∧
    botRun ⟨true, true, 0⟩ [.stopSignal, .loopStep, .restartTick, .loopStep]
      = ⟨true, true, 1⟩ := by decide

/-- C9 (amended): once the running flag is down, no loop iteration
executes a further trading cycle and the flag stays down, for as long
as no restart tick occurs; terminality fails only because of the
external 5-second restart timer, which re-invokes `start()` whenever
the flag is down. -/
theorem stop_halts_until_restart (s : BotState) (es : List BotEvent)
    (hs : s.isRunning = false) (hes : BotEvent.restartTick ∉ es) :
    (botRun s es).cycles = s.cycles ∧ (botRun s es).isRunning = false := by
  induction es generalizing s with
  | nil => exact ⟨rfl, hs⟩
  | cons e es ih =>
    have he : e ≠ .restartTick := fun hc => hes (by simp [hc])
    have hes' : BotEvent.restartTick ∉ es := fun hc => hes (by simp [hc])
    have hstep : (botStep s e).cycles = s.cycles ∧ (botStep s e).isRunning = false := by
      cases e with
      | stopSignal => exact ⟨rfl, rfl⟩
      | loopStep =>
        by_cases hl : s.loopActive
        · simp [botStep, hl, hs]
        · simp [botStep, hl, hs]
      | restartTick => exact absurd rfl he
    have hrec := ih (botStep s e) hstep.2 hes'
    have hcons : botRun s (e :: es) = botRun (botStep s e) es := rfl
    rw [hcons]
    exact ⟨by rw [hrec.1, hstep.1], hrec.2⟩

/-- Witness for `stop_halts_until_restart`: with the flag down and no
restart tick, loop iterations and further stops leave the cycle count
at 3 and the flag down. -/
theorem stop_halts_until_restart_witness :
    (botRun ⟨false, true, 3⟩ [.loopStep, .stopSignal, .loopStep]).cycles = 3 ∧
    (botRun ⟨false, true, 3⟩ [.loopStep, .stopSignal, .loopStep]).isRunning = false :=
  stop_halts_until_restart ⟨false, true, 3⟩ [.loopStep, .stopSignal, .loopStep] rfl
    (by decide)

end FlashArb

